import Mathlib

/-!
Verification of the tasker repository: the closeable concurrent queue
(src/include/concurrent_queue.h) and the work-stealing scheduler built on it
(src/include/tasker.h).  Each C++ critical section is embedded as a pure
function on an explicit queue / pool state; thread interleavings are modelled
by a step relation on a global system state.
-/

set_option autoImplicit false

universe u

/-- State of a `ConcurrentQueue<T>` (src/include/concurrent_queue.h): the
`done_` flag and the FIFO contents `queue_` (list head = queue front, list end
= queue back). -/
structure CQueue (α : Type u) where
  done : Bool
  queue : List α
  deriving Repr, DecidableEq

/-- `ConcurrentQueue::Stop`: sets `done_ = true` under the lock and notifies
all waiters. -/
def CQueue.Stop {α : Type u} (q : CQueue α) : CQueue α :=
  { q with done := true }

/-- `ConcurrentQueue::Clear`: `queue_ = {}` under the lock. -/
def CQueue.Clear {α : Type u} (q : CQueue α) : CQueue α :=
  { q with queue := [] }

/-- `ConcurrentQueue::Empty`: `queue_.empty()` under a shared lock. -/
def CQueue.Empty {α : Type u} (q : CQueue α) : Bool :=
  q.queue.isEmpty

/-- `ConcurrentQueue::Size`: `queue_.size()` under a shared lock. -/
def CQueue.Size {α : Type u} (q : CQueue α) : Nat :=
  q.queue.length

/-- `ConcurrentQueue::Emplace`: under the lock, if `done_` the item is dropped
and the queue left untouched, else the item is appended at the back. -/
def CQueue.Emplace {α : Type u} (q : CQueue α) (x : α) : CQueue α :=
  if q.done then q else { q with queue := q.queue ++ [x] }

/-- `ConcurrentQueue::Push`: forwards to `Emplace`. -/
def CQueue.Push {α : Type u} (q : CQueue α) (x : α) : CQueue α :=
  q.Emplace x

/-- `ConcurrentQueue::TryEmplace`: `locked` records whether the
`std::try_to_lock` acquisition succeeded; on contention or on a closed queue
it returns `false` leaving the queue untouched, otherwise it appends the item
at the back and returns `true`. -/
def CQueue.TryEmplace {α : Type u} (q : CQueue α) (locked : Bool) (x : α) :
    Bool × CQueue α :=
  if !locked then (false, q)
  else if q.done then (false, q)
  else (true, { q with queue := q.queue ++ [x] })

/-- `ConcurrentQueue::TryPush`: forwards to `TryEmplace`. -/
def CQueue.TryPush {α : Type u} (q : CQueue α) (locked : Bool) (x : α) :
    Bool × CQueue α :=
  q.TryEmplace locked x

/-- `ConcurrentQueue::Pop`: waits on `done_ || !queue_.empty()`; the outer
`none` means the wait condition never holds in the current state (the caller
blocks).  Once the wait completes, the front item is removed and returned when
the queue is non-empty, else no value is returned. -/
def CQueue.Pop {α : Type u} (q : CQueue α) : Option (Option α × CQueue α) :=
  if q.done || !q.queue.isEmpty then
    match q.queue with
    | [] => some (none, q)
    | x :: rest => some (some x, { q with queue := rest })
  else none

/-- `ConcurrentQueue::TryPop`: with the lock acquired (`locked = true`) and the
queue non-empty, removes and returns the front item regardless of `done_`;
otherwise returns no value and leaves the queue untouched. -/
def CQueue.TryPop {α : Type u} (q : CQueue α) (locked : Bool) :
    Option α × CQueue α :=
  match locked, q.queue with
  | true, x :: rest => (some x, { q with queue := rest })
  | _, _ => (none, q)

/-- Iterated uncontended `TryPop`: the list of results (in call order) of `k`
consecutive `TryPop` calls, together with the final queue state. -/
def CQueue.tryPopSeq {α : Type u} : CQueue α → Nat → List (Option α) × CQueue α
  | q, 0 => ([], q)
  | q, m + 1 =>
    let s := q.TryPop true
    let r := CQueue.tryPopSeq s.2 m
    (s.1 :: r.1, r.2)

/-- `ConcurrentQueue::operator=(ConcurrentQueue&&)`: under both locks (taken
together by `std::scoped_lock`), `queue_ = std::move(other.queue_)`; neither
`done_` flag is touched and the moved-from queue is left empty. -/
def CQueue.moveAssign {α : Type u} (dst src : CQueue α) : CQueue α × CQueue α :=
  ({ dst with queue := src.queue }, { src with queue := [] })

/-- State of the primary `Tasker<T, N>` / `TaskerBase<Derived, T, N>`
scheduler (src/include/tasker.h): the lane count `count_` (at least 1 in any
constructed pool), the shared rotation counter `index_`, and the lane vector
`queues_`. -/
structure Pool (α : Type u) where
  count : Nat
  index : Nat
  queues : List (CQueue α)
  deriving Repr

/-- `Tasker::Stop` (primary template): closes every lane, joins every worker,
then `queues_.clear()` and `taskers_.clear()` leave the lane vector empty
while `count_` is unchanged. -/
def Pool.TaskerStop {α : Type u} (t : Pool α) : Pool α :=
  { t with queues := [] }

/-- `TaskerBase::Stop`: closes every lane and joins every worker; the lane
vector is kept. -/
def Pool.BaseStop {α : Type u} (t : Pool α) : Pool α :=
  { t with queues := t.queues.map CQueue.Stop }

/-- The `try_emplace` probe loop of `Tasker::Post` / `TaskerBase::Post` over
the lane offsets `ds`: each probe reads `queues_[(k + d) % cnt]`, where an
out-of-bounds index is a fault (`none`); `some none` means every probe failed;
`some (some qs)` is the lane vector after the first success.  `avail d`
records whether the `try_to_lock` acquisition of probe `d` succeeds. -/
def postScan {α : Type u} (qs : List (CQueue α)) (cnt k : Nat)
    (avail : Nat → Bool) (x : α) : List Nat → Option (Option (List (CQueue α)))
  | [] => some none
  | d :: ds =>
    match qs.get? ((k + d) % cnt) with
    | none => none
    | some q =>
      match q.TryEmplace (avail d) x with
      | (true, q2) => some (some (qs.set ((k + d) % cnt) q2))
      | (false, _) => postScan qs cnt k avail x ds

/-- `Tasker::Post` / `TaskerBase::Post`: fetch-add on `index_` obtaining the
start offset, probe all `count_` lanes with `try_emplace` in rotation order,
and if every probe fails fall back to a blocking `emplace` on lane
`index % count_`.  `none` is an out-of-bounds lane access (a fault). -/
def Pool.Post {α : Type u} (t : Pool α) (avail : Nat → Bool) (x : α) :
    Option (Pool α) :=
  match postScan t.queues t.count t.index avail x (List.range t.count) with
  | none => none
  | some (some qs) => some { t with index := t.index + 1, queues := qs }
  | some none =>
    match t.queues.get? (t.index % t.count) with
    | none => none
    | some q =>
      some { t with index := t.index + 1,
                    queues := t.queues.set (t.index % t.count) (q.Emplace x) }

/-- `TaskerBase::operator=(TaskerBase&&)` at the lane level: move-assign each
source lane into the corresponding destination lane, then `other.Stop()`
closes the moved-from lanes and joins the source workers.  The destination's
own workers are already running (`taskers_` is non-empty, so none are
spawned). -/
def Pool.moveAssign {α : Type u} (dst src : Pool α) : Pool α × Pool α :=
  let dq := List.zipWith (fun d s => (CQueue.moveAssign d s).1) dst.queues src.queues
  let sq := src.queues.map (fun s => ({ s with queue := [] } : CQueue α))
  ({ dst with queues := dq }, Pool.BaseStop { src with queues := sq })

/-- The steal order of the worker with home lane `n` (`std::generate` with
`n++ % size` in `Tasker::Run` / `TaskerBase::Run`): the indices
`n, n + 1, ..., n + cnt - 1`, each reduced mod `cnt`, computed once at
start. -/
def stealOrder (n cnt : Nat) : List Nat :=
  (List.range cnt).map (fun d => (n + d) % cnt)

/-- The steal phase of the worker loop: try each lane in `order`, taking the
first item an uncontended `TryPop` yields and stopping the scan (`break`).
`locked i` records whether the `try_to_lock` on lane `i` succeeds; an index
outside the vector reads as an empty open queue. -/
def stealScan {α : Type u} (qs : List (CQueue α)) (locked : Nat → Bool) :
    List Nat → Option (α × List (CQueue α))
  | [] => none
  | i :: is =>
    match (qs.getD i ⟨false, []⟩).TryPop (locked i) with
    | (some x, q2) => some (x, qs.set i q2)
    | (none, _) => stealScan qs locked is

/-- Result of one iteration of the worker loop body. -/
inductive WStep (α : Type u) where
  | handled (x : α) (qs : List (CQueue α))
  | exited
  | blocked
  deriving Repr

/-- One iteration of `Tasker::Run` / `TaskerBase::Run` for the worker with
home lane `n`: the steal scan in the fixed order; if it yields nothing, a
blocking `Pop` on the home lane, whose no-value result ends the loop
(`exited`); `blocked` means the home `Pop` never completes in this state. -/
def workerIter {α : Type u} (qs : List (CQueue α)) (cnt n : Nat)
    (locked : Nat → Bool) : WStep α :=
  match stealScan qs locked (stealOrder n cnt) with
  | some (x, qs2) => .handled x qs2
  | none =>
    match (qs.getD n ⟨false, []⟩).Pop with
    | none => .blocked
    | some (none, _) => .exited
    | some (some x, q2) => .handled x (qs.set n q2)

/-- State of the `Tasker<T, 1>` specialization ("looper"): its single
queue. -/
structure Looper (α : Type u) where
  queue : CQueue α
  deriving Repr

/-- `Tasker<T, 1>::Post`: a blocking `Emplace` on the single lane — no
rotation counter, no probe loop. -/
def Looper.Post {α : Type u} (t : Looper α) (x : α) : Looper α :=
  ⟨t.queue.Emplace x⟩

/-- `Tasker<T, 1>::Stop`: closes the single queue and joins the worker. -/
def Looper.Stop {α : Type u} (t : Looper α) : Looper α :=
  ⟨t.queue.Stop⟩

/-- Helper for `runLoop`: drains the contents of a queue whose `done_` flag is
`d`, mirroring repeated `Pop` calls. -/
def drainFrom {α : Type u} (d : Bool) : List α → Option (List α)
  | [] => if d then some [] else none
  | x :: rest => (drainFrom d rest).map (fun l => x :: l)

/-- `Tasker<T, 1>::Run` executed with no other thread touching the queue: the
values handed to `function`, in order, or `none` if the loop blocks forever
inside `Pop` (open queue exhausted before `Stop`). -/
def runLoop {α : Type u} (q : CQueue α) : Option (List α) :=
  drainFrom q.done q.queue

/-- Global state of a pool run: the lanes, one exit flag per worker (worker
`w`'s home lane is lane `w`; `true` = the worker's `Run` has returned), the
items handed to a handler so far, and the items successfully enqueued so
far. -/
structure Sys (α : Type u) where
  lanes : List (CQueue α)
  exited : List Bool
  handled : List α
  posted : List α

/-- Interleaved small-step semantics of a pool: a post appends to an open lane
(the successful `Emplace` / `TryEmplace` critical section); `stop` closes
lanes one at a time; a live worker removes the head of any lane (its blocking
`Pop` or a steal `TryPop` critical section) and hands it to the handler; a
live worker exits exactly when its home lane's blocking `Pop` yields no value
(home lane closed and empty). -/
inductive Step {α : Type u} : Sys α → Sys α → Prop
  | enq (s : Sys α) (i : Nat) (x : α) (q : CQueue α)
      (hq : s.lanes.get? i = some q) (hopen : q.done = false) :
      Step s { s with lanes := s.lanes.set i (q.Emplace x),
                      posted := s.posted ++ [x] }
  | close (s : Sys α) (i : Nat) (q : CQueue α)
      (hq : s.lanes.get? i = some q) :
      Step s { s with lanes := s.lanes.set i q.Stop }
  | take (s : Sys α) (w i : Nat) (x : α) (rest : List α) (q : CQueue α)
      (hw : s.exited.get? w = some false)
      (hq : s.lanes.get? i = some q) (hx : q.queue = x :: rest) :
      Step s { s with lanes := s.lanes.set i { q with queue := rest },
                      handled := s.handled ++ [x] }
  | exit (s : Sys α) (w : Nat) (q : CQueue α)
      (hw : s.exited.get? w = some false)
      (hq : s.lanes.get? w = some q)
      (hdone : q.done = true) (hempty : q.queue = []) :
      Step s { s with exited := s.exited.set w true }

/-- Reflexive-transitive closure of `Step`: the states a pool run can reach. -/
def Reachable {α : Type u} : Sys α → Sys α → Prop :=
  Relation.ReflTransGen Step

/-- The items currently queued across a lane vector, as a multiset. -/
def pendingOf {α : Type u} (lanes : List (CQueue α)) : Multiset α :=
  Multiset.ofList (lanes.map (fun q => q.queue)).flatten

/-- `stop()` has returned: every worker has been joined. -/
def Stopped {α : Type u} (s : Sys α) : Prop :=
  ∀ w b, s.exited.get? w = some b → b = true

/-- The system state of a freshly started (or freshly moved-into) pool: its
lanes, one live worker per lane, nothing handled or posted yet. -/
def sysOf {α : Type u} (p : Pool α) : Sys α :=
  ⟨p.queues, List.replicate p.queues.length false, [], []⟩

/-
Theorems.  First some list/multiset helpers, then one theorem per claim.
-/

theorem listLtOfGet {α : Type u} {l : List α} {i : Nat} {a : α}
    (h : l.get? i = some a) : i < l.length := by
  rw [List.get?_eq_some] at h
  obtain ⟨hl, _⟩ := h
  exact hl

theorem listGetOfLt {α : Type u} (l : List α) (i : Nat) (h : i < l.length) :
    ∃ a, l.get? i = some a :=
  ⟨l.get ⟨i, h⟩, List.get?_eq_get h⟩

theorem listSetGetSelf {α : Type u} {l : List α} {i : Nat} {a : α}
    (h : l.get? i = some a) : l.set i a = l := by
  induction l generalizing i with
  | nil => simp at h
  | cons b t ih =>
    cases i with
    | zero =>
      simp only [List.get?_cons_zero, Option.some.injEq] at h
      simp [h]
    | succ m =>
      simp only [List.get?_cons_succ] at h
      simp only [List.set_cons_succ]
      rw [ih h]

/-- Claim C2: `Pop` blocks exactly when the queue is open and empty; on a
non-empty queue (closed or not) it removes and returns the head; on a closed
empty queue it returns no value immediately, leaving the queue unchanged. -/
theorem C2_blocking_pop {α : Type u} (q : CQueue α) :
    (∀ x rest, q.queue = x :: rest →
      q.Pop = some (some x, { q with queue := rest })) ∧
    (q.done = true → q.queue = [] → q.Pop = some (none, q)) ∧
    (q.done = false → q.queue = [] → q.Pop = none) := by
  refine ⟨?_, ?_, ?_⟩
  · intro x rest hq
    simp [CQueue.Pop, hq]
  · intro hd hq
    simp [CQueue.Pop, hd, hq]
  · intro hd hq
    simp [CQueue.Pop, hd, hq]

/-- Witness for C2 at concrete queues. -/
theorem C2_blocking_pop_witness :
    (CQueue.mk true [1, 2] : CQueue Nat).Pop = some (some 1, ⟨true, [2]⟩) ∧
    (CQueue.mk true [] : CQueue Nat).Pop = some (none, ⟨true, []⟩) ∧
    (CQueue.mk false [] : CQueue Nat).Pop = none := by
  refine ⟨(C2_blocking_pop ⟨true, [1, 2]⟩).1 1 [2] rfl, ?_, ?_⟩
  · exact (C2_blocking_pop ⟨true, []⟩).2.1 rfl rfl
  · exact (C2_blocking_pop ⟨false, []⟩).2.2 rfl rfl

/-- Claim C3: on a closed queue `Emplace` silently discards the item leaving
the queue (hence its contents, size and emptiness) unchanged, and `TryEmplace`
returns `false` without modifying the queue; on an open queue an uncontended
`TryEmplace` appends the item at the back and returns `true`. -/
theorem C3_closed_drops_work {α : Type u} (q : CQueue α) (x : α) :
    (q.done = true → q.Emplace x = q) ∧
    (q.done = true → ∀ locked, q.TryEmplace locked x = (false, q)) ∧
    (q.done = false →
      q.TryEmplace true x = (true, { q with queue := q.queue ++ [x] })) := by
  refine ⟨?_, ?_, ?_⟩
  · intro hd
    simp [CQueue.Emplace, hd]
  · intro hd locked
    cases locked <;> simp [CQueue.TryEmplace, hd]
  · intro hd
    simp [CQueue.TryEmplace, hd]

/-- Witness for C3 at concrete queues. -/
theorem C3_closed_drops_work_witness :
    (CQueue.mk true [5] : CQueue Nat).Emplace 9 = ⟨true, [5]⟩ ∧
    (CQueue.mk true [5] : CQueue Nat).TryEmplace true 9 = (false, ⟨true, [5]⟩) ∧
    (CQueue.mk false [5] : CQueue Nat).TryEmplace true 9 = (true, ⟨false, [5, 9]⟩) := by
  refine ⟨(C3_closed_drops_work ⟨true, [5]⟩ 9).1 rfl,
    (C3_closed_drops_work ⟨true, [5]⟩ 9).2.1 rfl true,
    (C3_closed_drops_work ⟨false, [5]⟩ 9).2.2 rfl⟩

/-- Claim C4: an uncontended `TryPop` yields no value exactly when the queue is
empty, regardless of the closed flag (an empty queue is also left unchanged);
and on a queue holding `k` items — in particular a closed one — `k` consecutive
`TryPop` calls return the items in FIFO order and the `(k+1)`-th returns no
value. -/
theorem C4_try_pop_ignores_closed {α : Type u} (d : Bool) (l : List α) :
    ((((CQueue.mk d l).TryPop true).1 = none ↔ l = []) ∧
      (CQueue.mk d ([] : List α)).TryPop true = (none, ⟨d, []⟩)) ∧
    (CQueue.mk d l).tryPopSeq (l.length + 1) = (l.map some ++ [none], ⟨d, []⟩) := by
  constructor
  · constructor
    · cases l <;> simp [CQueue.TryPop]
    · simp [CQueue.TryPop]
  · induction l with
    | nil => simp [CQueue.tryPopSeq, CQueue.TryPop]
    | cons x rest ih =>
      simp only [List.length_cons, CQueue.tryPopSeq, CQueue.TryPop, List.map_cons,
        List.cons_append]
      exact congrArg (fun p => (some x :: p.1, p.2)) ih

/-- Claim C10: the closed flag is monotone — no operation resets it (`Stop`
sets it, every other operation preserves it) — a second `Stop` leaves the state
exactly as the first left it, and `Clear` empties the contents while preserving
the closed flag. -/
theorem C10_closed_monotone {α : Type u} (q : CQueue α) (x : α) (locked : Bool) :
    (q.Stop.done = true ∧ q.Stop.queue = q.queue) ∧
    q.Stop.Stop = q.Stop ∧
    (q.Emplace x).done = q.done ∧
    ((q.TryEmplace locked x).2.done = q.done) ∧
    ((q.TryPop locked).2.done = q.done) ∧
    (∀ v q2, q.Pop = some (v, q2) → q2.done = q.done) ∧
    (q.Clear.queue = [] ∧ q.Clear.done = q.done) := by
  refine ⟨⟨rfl, rfl⟩, rfl, ?_, ?_, ?_, ?_, ⟨rfl, rfl⟩⟩
  · by_cases hd : q.done <;> simp [CQueue.Emplace, hd]
  · cases locked <;> by_cases hd : q.done <;> simp [CQueue.TryEmplace, hd]
  · cases locked <;> cases hq : q.queue <;> simp [CQueue.TryPop, hq]
  · intro v q2 h
    unfold CQueue.Pop at h
    by_cases hc : q.done || !q.queue.isEmpty
    · simp only [hc, if_true] at h
      cases hq : q.queue with
      | nil => rw [hq] at h; cases h; rfl
      | cons y rest => rw [hq] at h; cases h; rfl
    · simp [hc] at h

/-- Witness for C10: the `Pop` conjunct applied at a concrete queue. -/
theorem C10_closed_monotone_witness :
    (CQueue.mk true [] : CQueue Nat).done = (CQueue.mk true [3] : CQueue Nat).done :=
  (C10_closed_monotone (⟨true, [3]⟩ : CQueue Nat) 0 true).2.2.2.2.2.1
    (some 3) ⟨true, []⟩ rfl

theorem postScan_fails {α : Type u} (qs : List (CQueue α)) (cnt k : Nat)
    (avail : Nat → Bool) (x : α) (ds : List Nat)
    (h : ∀ d ∈ ds, ∃ q, qs.get? ((k + d) % cnt) = some q ∧
      (avail d = false ∨ q.done = true)) :
    postScan qs cnt k avail x ds = some none := by
  induction ds with
  | nil => rfl
  | cons d ds ih =>
    obtain ⟨q, hq, hfail⟩ := h d (List.mem_cons_self d ds)
    have hte : q.TryEmplace (avail d) x = (false, q) := by
      rcases hfail with h1 | h1
      · simp [CQueue.TryEmplace, h1]
      · cases ha : avail d <;> simp [CQueue.TryEmplace, h1, ha]
    simp only [postScan, hq, hte]
    exact ih (fun e he => h e (List.mem_cons_of_mem d he))

theorem postScan_first {α : Type u} (qs : List (CQueue α)) (cnt k : Nat)
    (avail : Nat → Bool) (x : α) (d0 : Nat) (q0 : CQueue α)
    (hq0 : qs.get? ((k + d0) % cnt) = some q0)
    (hopen : q0.done = false) (hav : avail d0 = true) :
    ∀ len a, a ≤ d0 → d0 < a + len →
    (∀ d, a ≤ d → d < d0 → ∃ q, qs.get? ((k + d) % cnt) = some q ∧
      (avail d = false ∨ q.done = true)) →
    postScan qs cnt k avail x (List.range' a len) =
      some (some (qs.set ((k + d0) % cnt) { q0 with queue := q0.queue ++ [x] })) := by
  intro len
  induction len with
  | zero =>
    intro a ha hlt _
    omega
  | succ m ih =>
    intro a ha hlt hfail
    rw [List.range'_succ]
    by_cases had : a = d0
    · subst had
      simp only [postScan, hq0, CQueue.TryEmplace, hav, hopen, Bool.not_true,
        Bool.false_eq_true, if_false, ite_false]
    · have ha2 : a < d0 := lt_of_le_of_ne ha had
      obtain ⟨q, hq, hf⟩ := hfail a (le_refl a) ha2
      have hte : q.TryEmplace (avail a) x = (false, q) := by
        rcases hf with h1 | h1
        · simp [CQueue.TryEmplace, h1]
        · cases hb : avail a <;> simp [CQueue.TryEmplace, h1, hb]
      simp only [postScan, hq, hte]
      exact ih (a + 1) ha2 (by omega) (fun e he1 he2 => hfail e (by omega) he2)

theorem pool_post_probe {α : Type u} (t : Pool α) (avail : Nat → Bool) (x : α)
    (qs2 : List (CQueue α))
    (hscan : postScan t.queues t.count t.index avail x (List.range t.count)
      = some (some qs2)) :
    t.Post avail x = some { t with index := t.index + 1, queues := qs2 } := by
  unfold Pool.Post
  rw [hscan]

theorem pool_post_fallback {α : Type u} (t : Pool α) (avail : Nat → Bool) (x : α)
    (q : CQueue α)
    (hscan : postScan t.queues t.count t.index avail x (List.range t.count)
      = some none)
    (hq : t.queues.get? (t.index % t.count) = some q) :
    t.Post avail x
      = some ⟨t.count, t.index + 1, t.queues.set (t.index % t.count) (q.Emplace x)⟩ := by
  unfold Pool.Post
  rw [hscan, hq]

/-- Claim C5: on a Running pool (every lane open) `Post` increments the shared
rotation counter from `k` and enqueues the item into exactly one lane, by
appending it at the back (no loss, no duplication): the lane `(k + d0) % N`
for the first probe offset `d0` whose `try_emplace` lock succeeds, or — when
all `N` non-blocking probes fail — lane `k % N` via the blocking `Emplace`
fallback. -/
theorem C5_posting_algorithm {α : Type u} (t : Pool α) (avail : Nat → Bool) (x : α)
    (hcnt : 0 < t.count) (hlen : t.queues.length = t.count)
    (hrun : ∀ q ∈ t.queues, q.done = false) :
    ∃ t2 j q, t.Post avail x = some t2 ∧
      t2.index = t.index + 1 ∧ t2.count = t.count ∧ j < t.count ∧
      t.queues.get? j = some q ∧
      t2.queues = t.queues.set j { q with queue := q.queue ++ [x] } ∧
      (∀ d0, d0 < t.count → avail d0 = true → (∀ d, d < d0 → avail d = false) →
        j = (t.index + d0) % t.count) ∧
      ((∀ d, d < t.count → avail d = false) → j = t.index % t.count) := by
  by_cases hex : ∃ d, d < t.count ∧ avail d = true
  · set d0 := Nat.find hex with hd0def
    obtain ⟨hd0lt, hd0av⟩ := Nat.find_spec hex
    have hmin : ∀ d, d < d0 → avail d = false := by
      intro d hd
      have := Nat.find_min hex hd
      by_contra hne
      exact this ⟨lt_trans (by omega) hd0lt, by
        cases hb : avail d
        · exact absurd hb hne
        · rfl⟩
    have hjlt : (t.index + d0) % t.count < t.count := Nat.mod_lt _ hcnt
    obtain ⟨q, hq⟩ := listGetOfLt t.queues _ (by rw [hlen]; exact hjlt)
    have hopen : q.done = false := hrun q (List.get?_mem hq)
    have hscan := postScan_first t.queues t.count t.index avail x d0 q hq hopen
      hd0av t.count 0 (Nat.zero_le d0) (by omega)
      (fun d _ hd => by
        have hb : (t.index + d) % t.count < t.count := Nat.mod_lt _ hcnt
        obtain ⟨q2, hq2⟩ := listGetOfLt t.queues _ (by rw [hlen]; exact hb)
        exact ⟨q2, hq2, Or.inl (hmin d hd)⟩)
    refine ⟨_, (t.index + d0) % t.count, q,
      pool_post_probe t avail x _ (by rw [List.range_eq_range']; exact hscan),
      rfl, rfl, hjlt, hq, rfl, ?_, ?_⟩
    · intro d1 hd1lt hd1av hd1min
      have h1 : d0 ≤ d1 := Nat.find_min' hex ⟨hd1lt, hd1av⟩
      have h2 : d1 ≤ d0 := by
        by_contra hgt
        have := hd1min d0 (by omega)
        rw [this] at hd0av
        exact Bool.false_ne_true hd0av
      have : d0 = d1 := le_antisymm h1 h2
      rw [this]
    · intro hall
      have := hall d0 hd0lt
      rw [this] at hd0av
      exact absurd hd0av (Bool.false_ne_true)
  · have hall : ∀ d, d < t.count → avail d = false := by
      intro d hd
      by_contra hne
      exact hex ⟨d, hd, by
        cases hb : avail d
        · exact absurd hb hne
        · rfl⟩
    have hscan := postScan_fails t.queues t.count t.index avail x
      (List.range t.count)
      (fun d hd => by
        have hdlt : d < t.count := List.mem_range.mp hd
        have hb : (t.index + d) % t.count < t.count := Nat.mod_lt _ hcnt
        obtain ⟨q2, hq2⟩ := listGetOfLt t.queues _ (by rw [hlen]; exact hb)
        exact ⟨q2, hq2, Or.inl (hall d hdlt)⟩)
    have hjlt : t.index % t.count < t.count := Nat.mod_lt _ hcnt
    obtain ⟨q, hq⟩ := listGetOfLt t.queues _ (by rw [hlen]; exact hjlt)
    have hopen : q.done = false := hrun q (List.get?_mem hq)
    have hq2 : q.Emplace x = { q with queue := q.queue ++ [x] } := by
      simp [CQueue.Emplace, hopen]
    refine ⟨⟨t.count, t.index + 1, t.queues.set (t.index % t.count) (q.Emplace x)⟩,
      t.index % t.count, q, pool_post_fallback t avail x q hscan hq,
      rfl, rfl, hjlt, hq, by rw [hq2], ?_, fun _ => rfl⟩
    · intro d1 hd1lt hd1av _
      have := hall d1 hd1lt
      rw [this] at hd1av
      exact absurd hd1av (Bool.false_ne_true)

/-- Witness for C5: posting to a concrete Running two-lane pool with every
lock available lands the item in lane `index % 2`. -/
theorem C5_posting_algorithm_witness :
    ∃ t2 j q,
      Pool.Post (⟨2, 0, [⟨false, []⟩, ⟨false, []⟩]⟩ : Pool Nat) (fun _ => true) 7
          = some t2 ∧
      t2.index = 0 + 1 ∧ t2.count = 2 ∧ j < 2 ∧
      (⟨2, 0, [⟨false, []⟩, ⟨false, []⟩]⟩ : Pool Nat).queues.get? j = some q ∧
      t2.queues = (⟨2, 0, [⟨false, []⟩, ⟨false, []⟩]⟩ : Pool Nat).queues.set j
          { q with queue := q.queue ++ [7] } ∧
      (∀ d0, d0 < 2 → (fun _ : Nat => true) d0 = true →
        (∀ d, d < d0 → (fun _ : Nat => true) d = false) → j = (0 + d0) % 2) ∧
      ((∀ d, d < 2 → (fun _ : Nat => true) d = false) → j = 0 % 2) :=
  C5_posting_algorithm (⟨2, 0, [⟨false, []⟩, ⟨false, []⟩]⟩ : Pool Nat)
    (fun _ => true) 7 (by decide) (by decide) (by decide)

/-- Claim C7 counterexample: for the primary `Tasker` template the claim
fails — `Tasker::Stop` clears the lane vector while `count_` stays 2, so a
`Post` after `Stop` has completed reads `queues_[(index + 0) % 2]` out of
bounds: the model faults (`none`) rather than leaving the queues unchanged. -/
theorem C7_counterexample :
    Pool.Post (Pool.TaskerStop (⟨2, 0, [⟨false, []⟩, ⟨false, []⟩]⟩ : Pool Nat))
      (fun _ => true) 5 = none := rfl

/-- Claim C7, amended: after `TaskerBase::Stop` (which closes the lanes but
keeps the lane vector) every lane access of a subsequent `Post` is in bounds
and the item is silently dropped — no error, every queue unchanged, only the
rotation counter advances; likewise posting after `Tasker<T, 1>::Stop` leaves
the single queue unchanged.  For the primary `Tasker` template, whose `Stop`
clears the lane vector, a post after stop faults instead (see the
counterexample). -/
theorem C7_post_after_stop {α : Type u} (t : Pool α) (lp : Looper α)
    (avail : Nat → Bool) (x : α)
    (hcnt : 0 < t.count) (hlen : t.queues.length = t.count) :
    t.BaseStop.Post avail x = some { t.BaseStop with index := t.index + 1 } ∧
    lp.Stop.Post x = lp.Stop := by
  constructor
  · have hlen2 : t.BaseStop.queues.length = t.count := by
      simp [Pool.BaseStop, hlen]
    have hscan := postScan_fails t.BaseStop.queues t.count t.index avail x
      (List.range t.count)
      (fun d hd => by
        have hb : (t.index + d) % t.count < t.count := Nat.mod_lt _ hcnt
        obtain ⟨q2, hq2⟩ := listGetOfLt t.BaseStop.queues _ (by rw [hlen2]; exact hb)
        refine ⟨q2, hq2, Or.inr ?_⟩
        have : q2 ∈ t.BaseStop.queues := List.get?_mem hq2
        simp only [Pool.BaseStop, List.mem_map] at this
        obtain ⟨q0, _, hq0⟩ := this
        rw [← hq0]
        rfl)
    have hjlt : t.index % t.count < t.count := Nat.mod_lt _ hcnt
    obtain ⟨q, hq⟩ := listGetOfLt t.BaseStop.queues _ (by rw [hlen2]; exact hjlt)
    have hdone : q.done = true := by
      have : q ∈ t.BaseStop.queues := List.get?_mem hq
      simp only [Pool.BaseStop, List.mem_map] at this
      obtain ⟨q0, _, hq0⟩ := this
      rw [← hq0]
      rfl
    have hemp : q.Emplace x = q := by
      simp [CQueue.Emplace, hdone]
    have hq2 : t.BaseStop.queues.get? (t.BaseStop.index % t.BaseStop.count) = some q := hq
    have hpost := pool_post_fallback t.BaseStop avail x q hscan hq2
    simp only [Pool.BaseStop] at hpost hq2 ⊢
    rw [hemp] at hpost
    rw [listSetGetSelf hq2] at hpost
    exact hpost
  · cases lp with
    | mk q => simp [Looper.Stop, Looper.Post, CQueue.Stop, CQueue.Emplace]

/-- Witness for C7 at a concrete one-lane pool and a concrete looper. -/
theorem C7_post_after_stop_witness :
    (Pool.BaseStop (⟨1, 4, [⟨false, [2]⟩]⟩ : Pool Nat)).Post (fun _ => false) 9
        = some { Pool.BaseStop (⟨1, 4, [⟨false, [2]⟩]⟩ : Pool Nat) with index := 4 + 1 } ∧
    (Looper.Stop (⟨⟨false, [3]⟩⟩ : Looper Nat)).Post 9
        = Looper.Stop (⟨⟨false, [3]⟩⟩ : Looper Nat) :=
  C7_post_after_stop (⟨1, 4, [⟨false, [2]⟩]⟩ : Pool Nat)
    (⟨⟨false, [3]⟩⟩ : Looper Nat) (fun _ => false) 9 (by decide) (by decide)

theorem tryPop_fail {α : Type u} (q : CQueue α) (locked : Bool)
    (h : locked = false ∨ q.queue = []) : q.TryPop locked = (none, q) := by
  cases q with
  | mk d l => cases locked <;> cases l <;> simp_all [CQueue.TryPop]

theorem tryPop_hit {α : Type u} (q : CQueue α) (x : α) (rest : List α)
    (h : q.queue = x :: rest) : q.TryPop true = (some x, ⟨q.done, rest⟩) := by
  cases q with
  | mk d l => cases l <;> simp_all [CQueue.TryPop]

theorem pendingOf_cons {α : Type u} (q : CQueue α) (t : List (CQueue α)) :
    pendingOf (q :: t) = Multiset.ofList q.queue + pendingOf t := rfl

theorem pendingOf_set {α : Type u} (q2 : CQueue α) {lanes : List (CQueue α)}
    {i : Nat} {q : CQueue α} (h : lanes.get? i = some q) :
    pendingOf (lanes.set i q2) + Multiset.ofList q.queue
      = pendingOf lanes + Multiset.ofList q2.queue := by
  induction lanes generalizing i with
  | nil => simp at h
  | cons a t ih =>
    cases i with
    | zero =>
      simp only [List.get?_cons_zero, Option.some.injEq] at h
      subst h
      simp only [List.set_cons_zero, pendingOf_cons]
      abel
    | succ m =>
      simp only [List.get?_cons_succ] at h
      simp only [List.set_cons_succ, pendingOf_cons]
      rw [add_assoc, ih h, ← add_assoc]

theorem getD_pos {α : Type u} {qs : List (CQueue α)} {i : Nat}
    (h : (qs.getD i ⟨false, []⟩).queue ≠ []) :
    qs.get? i = some (qs.getD i ⟨false, []⟩) := by
  have he : qs.getD i ⟨false, []⟩ = (qs.get? i).getD ⟨false, []⟩ := rfl
  cases hg : qs.get? i with
  | none => rw [he, hg] at h; simp at h
  | some q => rw [he, hg]; rfl

theorem stealScan_skips {α : Type u} (qs : List (CQueue α)) (locked : Nat → Bool)
    (l : List Nat)
    (h : ∀ i ∈ l, locked i = false ∨ (qs.getD i ⟨false, []⟩).queue = []) :
    stealScan qs locked l = none := by
  induction l with
  | nil => rfl
  | cons i is ih =>
    have hfail := tryPop_fail (qs.getD i ⟨false, []⟩) (locked i)
      (h i (List.mem_cons_self i is))
    simp only [stealScan, hfail]
    exact ih (fun e he => h e (List.mem_cons_of_mem i he))

theorem stealScan_first {α : Type u} (qs : List (CQueue α)) (locked : Nat → Bool)
    (l1 l2 : List Nat) (j : Nat) (x : α) (rest : List α)
    (hskip : ∀ i ∈ l1, locked i = false ∨ (qs.getD i ⟨false, []⟩).queue = [])
    (hlock : locked j = true)
    (hj : (qs.getD j ⟨false, []⟩).queue = x :: rest) :
    stealScan qs locked (l1 ++ j :: l2)
      = some (x, qs.set j ⟨(qs.getD j ⟨false, []⟩).done, rest⟩) := by
  induction l1 with
  | nil =>
    have htp := tryPop_hit (qs.getD j ⟨false, []⟩) x rest hj
    rw [← hlock] at htp
    simp only [List.nil_append, stealScan, htp]
  | cons i is ih =>
    have hfail := tryPop_fail (qs.getD i ⟨false, []⟩) (locked i)
      (hskip i (List.mem_cons_self i is))
    simp only [List.cons_append, stealScan, hfail]
    exact ih (fun e he => hskip e (List.mem_cons_of_mem i he))

theorem stealScan_take {α : Type u} (qs : List (CQueue α)) (locked : Nat → Bool)
    (l : List Nat) (x : α) (qs2 : List (CQueue α))
    (h : stealScan qs locked l = some (x, qs2)) :
    pendingOf qs2 + {x} = pendingOf qs := by
  induction l with
  | nil => simp [stealScan] at h
  | cons i is ih =>
    by_cases hfail : locked i = false ∨ (qs.getD i ⟨false, []⟩).queue = []
    · have htp := tryPop_fail (qs.getD i ⟨false, []⟩) (locked i) hfail
      simp only [stealScan, htp] at h
      exact ih h
    · push_neg at hfail
      obtain ⟨hlock, hne⟩ := hfail
      have hlock2 : locked i = true := by
        cases hb : locked i
        · exact absurd hb hlock
        · rfl
      cases hq : (qs.getD i ⟨false, []⟩).queue with
      | nil => exact absurd hq hne
      | cons y restq =>
        have htp := tryPop_hit (qs.getD i ⟨false, []⟩) y restq hq
        rw [← hlock2] at htp
        simp only [stealScan, htp, Option.some.injEq, Prod.mk.injEq] at h
        obtain ⟨hxy, hqs2⟩ := h
        rw [← hqs2, ← hxy]
        have hget : qs.get? i = some (qs.getD i ⟨false, []⟩) :=
          getD_pos (by rw [hq]; exact List.cons_ne_nil y restq)
        have hps := pendingOf_set (⟨(qs.getD i ⟨false, []⟩).done, restq⟩ : CQueue α) hget
        rw [hq] at hps
        dsimp only at hps
        have hco : Multiset.ofList (y :: restq) = {y} + Multiset.ofList restq := by
          simp [Multiset.singleton_add]
        rw [hco, ← add_assoc] at hps
        exact add_right_cancel hps

/-- Claim C6: the worker with home lane `n` uses the fixed steal order
`n, (n+1) % N, ..., (n+N-1) % N`; its steal scan takes the first item a
non-blocking pop yields (skipping contended or empty lanes) and stops there,
so at most one item — exactly the taken one — leaves the lanes per scan; and
the iteration exits exactly when the scan yields nothing and the home lane's
blocking `Pop` returns no value, i.e. the home lane is closed and empty. -/
theorem C6_worker_loop {α : Type u} (qs : List (CQueue α)) (cnt n : Nat)
    (locked : Nat → Bool) :
    (∀ d, d < cnt → (stealOrder n cnt).get? d = some ((n + d) % cnt)) ∧
    (∀ l1 l2 j x rest,
      stealOrder n cnt = l1 ++ j :: l2 →
      (∀ i ∈ l1, locked i = false ∨ (qs.getD i ⟨false, []⟩).queue = []) →
      locked j = true →
      (qs.getD j ⟨false, []⟩).queue = x :: rest →
      stealScan qs locked (stealOrder n cnt)
        = some (x, qs.set j ⟨(qs.getD j ⟨false, []⟩).done, rest⟩)) ∧
    (∀ x qs2, stealScan qs locked (stealOrder n cnt) = some (x, qs2) →
      pendingOf qs2 + {x} = pendingOf qs) ∧
    (workerIter qs cnt n locked = WStep.exited ↔
      (stealScan qs locked (stealOrder n cnt) = none ∧
        (qs.getD n ⟨false, []⟩).done = true ∧
        (qs.getD n ⟨false, []⟩).queue = [])) := by
  refine ⟨?_, ?_, ?_, ?_⟩
  · intro d hd
    unfold stealOrder
    rw [List.get?_map, List.get?_range hd]
    rfl
  · intro l1 l2 j x rest horder hskip hlock hj
    rw [horder]
    exact stealScan_first qs locked l1 l2 j x rest hskip hlock hj
  · intro x qs2 h
    exact stealScan_take qs locked (stealOrder n cnt) x qs2 h
  · constructor
    · intro h
      unfold workerIter at h
      cases hscan : stealScan qs locked (stealOrder n cnt) with
      | some p =>
        rw [hscan] at h
        simp at h
      | none =>
        rw [hscan] at h
        refine ⟨rfl, ?_⟩
        cases hhq : (qs.getD n ⟨false, []⟩) with
        | mk d l =>
          rw [hhq] at h
          cases d <;> cases l <;> simp_all [CQueue.Pop]
    · rintro ⟨hscan, hdone, hempty⟩
      unfold workerIter
      rw [hscan]
      cases hhq : (qs.getD n ⟨false, []⟩) with
      | mk d l =>
        rw [hhq] at hdone hempty
        dsimp at hdone hempty
        subst hdone
        subst hempty
        rfl

/-- Witness for C6: on lanes `[closed empty, open holding 4]` with no lock
contention, the worker with home lane 0 steals the item from lane 1 — the
first lane in its order whose pop yields. -/
theorem C6_worker_loop_witness :
    stealScan [(⟨true, []⟩ : CQueue Nat), ⟨false, [4]⟩] (fun _ => true)
        (stealOrder 0 2)
      = some (4, [(⟨true, []⟩ : CQueue Nat), ⟨false, []⟩].set 1
          ⟨([(⟨true, []⟩ : CQueue Nat), ⟨false, [4]⟩].getD 1 ⟨false, []⟩).done, []⟩) :=
  (C6_worker_loop [(⟨true, []⟩ : CQueue Nat), ⟨false, [4]⟩] 2 0 (fun _ => true)).2.1
    [0] [] 1 4 [] (by decide) (by decide) rfl rfl

theorem looper_foldl_post {α : Type u} (xs : List α) :
    ∀ l : List α, List.foldl Looper.Post ⟨⟨false, l⟩⟩ xs = ⟨⟨false, l ++ xs⟩⟩ := by
  induction xs with
  | nil =>
    intro l
    simp
  | cons x rest ih =>
    intro l
    simp only [List.foldl_cons]
    have hstep : Looper.Post ⟨⟨false, l⟩⟩ x = ⟨⟨false, l ++ [x]⟩⟩ := by
      simp [Looper.Post, CQueue.Emplace]
    rw [hstep, ih (l ++ [x])]
    simp

theorem runLoop_closed {α : Type u} (l : List α) :
    runLoop (⟨true, l⟩ : CQueue α) = some l := by
  induction l with
  | nil => rfl
  | cons x rest ih =>
    simp only [runLoop, drainFrom] at ih ⊢
    rw [ih]
    rfl

/-- Claim C9: in the `Tasker<T, 1>` specialization, `Post` is exactly a
blocking `Emplace` on the single lane (no rotation counter, no steal scan);
the worker loop is exactly "blocking pop, handle, repeat until no value"; and
any sequence of posts made before `Stop` on a fresh looper is handled one at a
time in exactly post order (strict FIFO). -/
theorem C9_sequential_executor {α : Type u} (xs : List α) :
    (∀ (t : Looper α) (y : α), t.Post y = ⟨t.queue.Emplace y⟩) ∧
    (∀ q : CQueue α, runLoop q
        = match q.Pop with
          | none => none
          | some (none, _) => some []
          | some (some x, q2) => (runLoop q2).map (fun l => x :: l)) ∧
    runLoop (Looper.Stop (List.foldl Looper.Post ⟨⟨false, []⟩⟩ xs)).queue = some xs := by
  refine ⟨fun t y => rfl, ?_, ?_⟩
  · intro q
    cases q with
    | mk d l =>
      cases d <;> cases l <;> simp [runLoop, drainFrom, CQueue.Pop]
  · rw [looper_foldl_post xs []]
    simp only [List.nil_append, Looper.Stop, CQueue.Stop]
    exact runLoop_closed xs

theorem msOfAppend {α : Type u} (l1 l2 : List α) :
    Multiset.ofList (l1 ++ l2) = Multiset.ofList l1 + Multiset.ofList l2 := rfl

theorem step_lengths {α : Type u} {s s2 : Sys α} (h : Step s s2) :
    s2.lanes.length = s.lanes.length ∧ s2.exited.length = s.exited.length := by
  cases h <;> simp [List.length_set]

theorem reach_lengths {α : Type u} {s0 s : Sys α} (h : Reachable s0 s) :
    s.lanes.length = s0.lanes.length ∧ s.exited.length = s0.exited.length := by
  induction h with
  | refl => exact ⟨rfl, rfl⟩
  | tail _ hstep ih =>
    have hl := step_lengths hstep
    exact ⟨hl.1.trans ih.1, hl.2.trans ih.2⟩

theorem step_balance {α : Type u} {s s2 : Sys α} (h : Step s s2) :
    Multiset.ofList s2.handled + pendingOf s2.lanes + Multiset.ofList s.posted
      = Multiset.ofList s.handled + pendingOf s.lanes + Multiset.ofList s2.posted := by
  cases h with
  | enq i x q hq hopen =>
    have he : q.Emplace x = (⟨q.done, q.queue ++ [x]⟩ : CQueue α) := by
      cases q
      simp_all [CQueue.Emplace]
    dsimp only
    rw [he]
    have key := pendingOf_set (⟨q.done, q.queue ++ [x]⟩ : CQueue α) hq
    dsimp only at key
    have key2 : pendingOf (s.lanes.set i ⟨q.done, q.queue ++ [x]⟩)
        = pendingOf s.lanes + Multiset.ofList [x] := by
      have hstep : pendingOf (s.lanes.set i ⟨q.done, q.queue ++ [x]⟩)
            + Multiset.ofList q.queue
          = (pendingOf s.lanes + Multiset.ofList [x]) + Multiset.ofList q.queue := by
        rw [key, msOfAppend]
        abel
      exact add_right_cancel hstep
    rw [key2, msOfAppend]
    abel
  | close i q hq =>
    dsimp only
    have key := pendingOf_set q.Stop hq
    have hsq : (CQueue.Stop q).queue = q.queue := rfl
    rw [hsq] at key
    rw [add_right_cancel key]
  | take w i x rest q hw hq hx =>
    dsimp only
    have key := pendingOf_set (⟨q.done, rest⟩ : CQueue α) hq
    dsimp only at key
    rw [hx] at key
    have hsing : Multiset.ofList (x :: rest) = {x} + Multiset.ofList rest := by
      simp [Multiset.singleton_add]
    rw [hsing, ← add_assoc] at key
    have key2 := add_right_cancel key
    rw [msOfAppend, ← key2]
    have hx1 : Multiset.ofList [x] = ({x} : Multiset α) := by simp
    rw [hx1]
    abel
  | exit w q hw hq hdone hempty =>
    rfl

theorem reach_balance {α : Type u} {s0 s : Sys α} (h : Reachable s0 s) :
    Multiset.ofList s.handled + pendingOf s.lanes + Multiset.ofList s0.posted
      = Multiset.ofList s0.handled + pendingOf s0.lanes + Multiset.ofList s.posted := by
  induction h with
  | refl => rfl
  | @tail b c hab hbc ih =>
    have hb := step_balance hbc
    have key : Multiset.ofList c.handled + pendingOf c.lanes + Multiset.ofList s0.posted
          + Multiset.ofList b.posted
        = Multiset.ofList s0.handled + pendingOf s0.lanes + Multiset.ofList c.posted
          + Multiset.ofList b.posted := by
      have e1 : Multiset.ofList c.handled + pendingOf c.lanes + Multiset.ofList s0.posted
            + Multiset.ofList b.posted
          = (Multiset.ofList c.handled + pendingOf c.lanes + Multiset.ofList b.posted)
            + Multiset.ofList s0.posted := by abel
      rw [e1, hb]
      have e2 : Multiset.ofList b.handled + pendingOf b.lanes + Multiset.ofList c.posted
            + Multiset.ofList s0.posted
          = (Multiset.ofList b.handled + pendingOf b.lanes + Multiset.ofList s0.posted)
            + Multiset.ofList c.posted := by abel
      rw [e2, ih]
      abel
    exact add_right_cancel key

theorem step_exited_closed {α : Type u} {s s2 : Sys α} (h : Step s s2)
    (hinv : ∀ w q, s.exited.get? w = some true → s.lanes.get? w = some q →
      q.done = true ∧ q.queue = []) :
    ∀ w q, s2.exited.get? w = some true → s2.lanes.get? w = some q →
      q.done = true ∧ q.queue = [] := by
  cases h with
  | enq i x q hq hopen =>
    intro w q2 hw hq2
    dsimp only at hw hq2
    by_cases hiw : i = w
    · subst hiw
      have hlt : i < s.lanes.length := listLtOfGet hq
      rw [List.get?_set_eq_of_lt _ hlt] at hq2
      have := (hinv i q hw hq).1
      rw [hopen] at this
      exact absurd this (by simp)
    · rw [List.get?_set_ne _ _ hiw] at hq2
      exact hinv w q2 hw hq2
  | close i q hq =>
    intro w q2 hw hq2
    dsimp only at hw hq2
    by_cases hiw : i = w
    · subst hiw
      have hlt : i < s.lanes.length := listLtOfGet hq
      rw [List.get?_set_eq_of_lt _ hlt] at hq2
      cases hq2
      exact ⟨rfl, (hinv i q hw hq).2⟩
    · rw [List.get?_set_ne _ _ hiw] at hq2
      exact hinv w q2 hw hq2
  | take w0 i x rest q hw0 hq hx =>
    intro w q2 hw hq2
    dsimp only at hw hq2
    by_cases hiw : i = w
    · subst hiw
      have := (hinv i q hw hq).2
      rw [hx] at this
      exact absurd this (by simp)
    · rw [List.get?_set_ne _ _ hiw] at hq2
      exact hinv w q2 hw hq2
  | exit w0 q hw0 hq hdone hempty =>
    intro w q2 hw hq2
    dsimp only at hw hq2
    by_cases hww : w0 = w
    · subst hww
      rw [hq2] at hq
      cases hq
      exact ⟨hdone, hempty⟩
    · rw [List.get?_set_ne _ _ hww] at hw
      exact hinv w q2 hw hq2

theorem reach_exited_closed {α : Type u} {s0 s : Sys α} (h : Reachable s0 s)
    (hinv : ∀ w q, s0.exited.get? w = some true → s0.lanes.get? w = some q →
      q.done = true ∧ q.queue = []) :
    ∀ w q, s.exited.get? w = some true → s.lanes.get? w = some q →
      q.done = true ∧ q.queue = [] := by
  induction h with
  | refl => exact hinv
  | tail _ hstep ih => exact step_exited_closed hstep ih

theorem pendingOf_zero {α : Type u} {lanes : List (CQueue α)}
    (h : ∀ i q, lanes.get? i = some q → q.queue = []) : pendingOf lanes = 0 := by
  induction lanes with
  | nil => rfl
  | cons a t ih =>
    have ha : a.queue = [] := h 0 a rfl
    have ht : pendingOf t = 0 := ih (fun i q hq => h (i + 1) q hq)
    rw [pendingOf_cons, ha, ht]
    rfl

theorem stopped_lanes_empty {α : Type u} {s0 s : Sys α}
    (hwl : s0.exited.length = s0.lanes.length)
    (hex0 : ∀ w b, s0.exited.get? w = some b → b = false)
    (hreach : Reachable s0 s) (hstop : Stopped s) :
    ∀ i q, s.lanes.get? i = some q → q.done = true ∧ q.queue = [] := by
  have hlen := reach_lengths hreach
  have hinv := reach_exited_closed hreach
    (fun w q hw _ => absurd (hex0 w true hw) (by simp))
  intro i q hq
  have hi : i < s.lanes.length := listLtOfGet hq
  have hi2 : i < s.exited.length := by
    rw [hlen.2, hwl, ← hlen.1]
    exact hi
  obtain ⟨b, hb⟩ := listGetOfLt s.exited i hi2
  have hbt : b = true := hstop i b hb
  subst hbt
  exact hinv i q hb hq

theorem stopped_balance {α : Type u} {s0 s : Sys α}
    (hwl : s0.exited.length = s0.lanes.length)
    (hex0 : ∀ w b, s0.exited.get? w = some b → b = false)
    (hreach : Reachable s0 s) (hstop : Stopped s) :
    Multiset.ofList s.handled + Multiset.ofList s0.posted
      = Multiset.ofList s0.handled + pendingOf s0.lanes + Multiset.ofList s.posted := by
  have hle := stopped_lanes_empty hwl hex0 hreach hstop
  have hpend : pendingOf s.lanes = 0 := pendingOf_zero (fun i q hq => (hle i q hq).2)
  have hb := reach_balance hreach
  rw [hpend, add_zero] at hb
  exact hb

theorem step_stuck {α : Type u} {s s2 : Sys α} (hstep : Step s s2)
    (hlanes : ∀ i q, s.lanes.get? i = some q → q.done = true ∧ q.queue = []) :
    (s2.handled = s.handled ∧ s2.posted = s.posted) ∧
    (∀ i q, s2.lanes.get? i = some q → q.done = true ∧ q.queue = []) := by
  cases hstep with
  | enq i x q hq hopen =>
    have hc := (hlanes i q hq).1
    rw [hopen] at hc
    exact absurd hc (by simp)
  | close i q hq =>
    refine ⟨⟨rfl, rfl⟩, ?_⟩
    intro j q2 hq2
    dsimp only at hq2
    by_cases hij : i = j
    · subst hij
      have hlt : i < s.lanes.length := listLtOfGet hq
      rw [List.get?_set_eq_of_lt _ hlt] at hq2
      cases hq2
      exact ⟨rfl, (hlanes i q hq).2⟩
    · rw [List.get?_set_ne _ _ hij] at hq2
      exact hlanes j q2 hq2
  | take w i x rest q hw hq hx =>
    have hc := (hlanes i q hq).2
    rw [hx] at hc
    exact absurd hc (by simp)
  | exit w q hw hq hdone hempty =>
    exact ⟨⟨rfl, rfl⟩, hlanes⟩

theorem reach_stuck {α : Type u} {s0 s : Sys α} (h : Reachable s0 s)
    (hlanes : ∀ i q, s0.lanes.get? i = some q → q.done = true ∧ q.queue = []) :
    (s.handled = s0.handled ∧ s.posted = s0.posted) ∧
    (∀ i q, s.lanes.get? i = some q → q.done = true ∧ q.queue = []) := by
  induction h with
  | refl => exact ⟨⟨rfl, rfl⟩, hlanes⟩
  | tail _ hstep ih =>
    obtain ⟨⟨hh, hp⟩, hl⟩ := ih
    obtain ⟨⟨hh2, hp2⟩, hl2⟩ := step_stuck hstep hl
    exact ⟨⟨hh2.trans hh, hp2.trans hp⟩, hl2⟩

theorem replicate_get_false {n w : Nat} {b : Bool}
    (h : (List.replicate n false).get? w = some b) : b = false := by
  induction n generalizing w with
  | zero => simp at h
  | succ m ih =>
    cases w with
    | zero =>
      simp only [List.replicate, List.get?_cons_zero, Option.some.injEq] at h
      exact h.symm
    | succ k =>
      simp only [List.replicate, List.get?_cons_succ] at h
      exact ih h

theorem zipWith_get {α : Type u} (f : CQueue α → CQueue α → CQueue α) :
    ∀ (l1 l2 : List (CQueue α)) (n : Nat) (a b : CQueue α),
    l1.get? n = some a → l2.get? n = some b →
    (List.zipWith f l1 l2).get? n = some (f a b) := by
  intro l1
  induction l1 with
  | nil =>
    intro l2 n a b h1 _
    simp at h1
  | cons x t ih =>
    intro l2 n a b h1 h2
    cases l2 with
    | nil => simp at h2
    | cons y t2 =>
      cases n with
      | zero =>
        simp only [List.get?_cons_zero, Option.some.injEq] at h1 h2
        subst h1
        subst h2
        rfl
      | succ m =>
        simp only [List.get?_cons_succ] at h1 h2
        exact ih t2 m a b h1 h2

theorem pendingOf_move {α : Type u} :
    ∀ (l1 l2 : List (CQueue α)), l1.length = l2.length →
    pendingOf (List.zipWith (fun d s => (CQueue.moveAssign d s).1) l1 l2)
      = pendingOf l2 := by
  intro l1
  induction l1 with
  | nil =>
    intro l2 h
    cases l2 with
    | nil => rfl
    | cons y t2 => simp at h
  | cons x t ih =>
    intro l2 h
    cases l2 with
    | nil => simp at h
    | cons y t2 =>
      simp only [List.length_cons, Nat.succ.injEq] at h
      simp only [List.zipWith_cons_cons, pendingOf_cons]
      rw [ih t2 h]
      rfl

theorem moveAssign_src_lanes {α : Type u} (dst src : Pool α) :
    ∀ n q, (Pool.moveAssign dst src).2.queues.get? n = some q →
      q.done = true ∧ q.queue = [] := by
  intro n q h
  simp only [Pool.moveAssign, Pool.BaseStop] at h
  have hm := List.get?_mem h
  simp only [List.mem_map] at hm
  obtain ⟨p, ⟨s1, _, hp⟩, hq⟩ := hm
  subst hq
  subst hp
  exact ⟨rfl, rfl⟩

/-- Claim C1: drain-to-completion.  In the step semantics, once `stop()` has
returned — every worker joined, which requires each worker's home lane to have
been closed and observed empty — every lane is closed and `is_empty()` holds,
and the multiset of items handed to handlers equals the multiset of items
successfully enqueued: every enqueued item was handed to some worker's handler
exactly once. -/
theorem C1_drain_to_completion {α : Type u} (s0 s : Sys α)
    (hwl : s0.exited.length = s0.lanes.length)
    (hlanes0 : ∀ i q, s0.lanes.get? i = some q → q.done = false ∧ q.queue = [])
    (hex0 : ∀ w b, s0.exited.get? w = some b → b = false)
    (hh0 : s0.handled = []) (hp0 : s0.posted = [])
    (hreach : Reachable s0 s) (hstop : Stopped s) :
    (∀ i q, s.lanes.get? i = some q → q.done = true ∧ q.Empty = true) ∧
    Multiset.ofList s.handled = Multiset.ofList s.posted := by
  have hle := stopped_lanes_empty hwl hex0 hreach hstop
  constructor
  · intro i q hq
    obtain ⟨h1, h2⟩ := hle i q hq
    exact ⟨h1, by simp [CQueue.Empty, h2]⟩
  · have hb := stopped_balance hwl hex0 hreach hstop
    have hpend0 : pendingOf s0.lanes = 0 :=
      pendingOf_zero (fun i q hq => (hlanes0 i q hq).2)
    rw [hh0, hp0, hpend0] at hb
    simpa using hb

/-- Witness for C1: a one-lane pool whose single worker exits after the lane
is closed; in the stopped state nothing was handled and nothing posted. -/
theorem C1_drain_to_completion_witness :
    Multiset.ofList (Sys.handled (⟨[⟨true, []⟩], [true], [], []⟩ : Sys Nat))
      = Multiset.ofList (Sys.posted (⟨[⟨true, []⟩], [true], [], []⟩ : Sys Nat)) := by
  have hstep1 : Step (⟨[⟨false, []⟩], [false], [], []⟩ : Sys Nat)
      ⟨[⟨true, []⟩], [false], [], []⟩ :=
    Step.close (⟨[⟨false, []⟩], [false], [], []⟩ : Sys Nat) 0 ⟨false, []⟩ rfl
  have hstep2 : Step (⟨[⟨true, []⟩], [false], [], []⟩ : Sys Nat)
      ⟨[⟨true, []⟩], [true], [], []⟩ :=
    Step.exit (⟨[⟨true, []⟩], [false], [], []⟩ : Sys Nat) 0 ⟨true, []⟩ rfl rfl rfl rfl
  have hreach : Reachable (⟨[⟨false, []⟩], [false], [], []⟩ : Sys Nat)
      ⟨[⟨true, []⟩], [true], [], []⟩ :=
    Relation.ReflTransGen.tail (Relation.ReflTransGen.tail
      Relation.ReflTransGen.refl hstep1) hstep2
  refine (C1_drain_to_completion _ _ rfl ?_ ?_ rfl rfl hreach ?_).2
  · intro i q hq
    cases i with
    | zero =>
      cases hq
      exact ⟨rfl, rfl⟩
    | succ m =>
      simp at hq
  · intro w b hb
    cases w with
    | zero =>
      cases hb
      rfl
    | succ m =>
      simp at hb
  · intro w b hb
    cases w with
    | zero =>
      cases hb
      rfl
    | succ m =>
      simp at hb

/-- Claim C8: move assignment at the lane level transfers the items of every
source lane to the corresponding destination lane (destination flags kept),
leaves every source lane closed and empty (source stopped), preserves the
pending multiset; any run of the destination that reaches the fully stopped
state has handled exactly the moved pending items (plus whatever was posted
later) — each exactly once — and no run of the stopped source ever handles or
posts anything. -/
theorem C8_move_preserves_pending {α : Type u} (dst src : Pool α)
    (hlen : dst.queues.length = src.queues.length) :
    (∀ n d0 s0, dst.queues.get? n = some d0 → src.queues.get? n = some s0 →
      (Pool.moveAssign dst src).1.queues.get? n = some ⟨d0.done, s0.queue⟩) ∧
    (∀ n q, (Pool.moveAssign dst src).2.queues.get? n = some q →
      q.done = true ∧ q.queue = []) ∧
    pendingOf (Pool.moveAssign dst src).1.queues = pendingOf src.queues ∧
    (∀ t, Reachable (sysOf (Pool.moveAssign dst src).1) t → Stopped t →
      Multiset.ofList t.handled
        = pendingOf src.queues + Multiset.ofList t.posted) ∧
    (∀ t, Reachable (sysOf (Pool.moveAssign dst src).2) t →
      t.handled = [] ∧ t.posted = []) := by
  have hpend : pendingOf (Pool.moveAssign dst src).1.queues = pendingOf src.queues := by
    simp only [Pool.moveAssign]
    exact pendingOf_move dst.queues src.queues hlen
  refine ⟨?_, moveAssign_src_lanes dst src, hpend, ?_, ?_⟩
  · intro n d0 s0 hd hs
    simp only [Pool.moveAssign]
    exact zipWith_get (fun d s => (CQueue.moveAssign d s).1) dst.queues src.queues
      n d0 s0 hd hs
  · intro t hreach hstop
    have hb := @stopped_balance α (sysOf (Pool.moveAssign dst src).1) t
      (by simp [sysOf]) (fun w b hb => replicate_get_false hb) hreach hstop
    simp only [sysOf] at hb
    rw [hpend] at hb
    simpa using hb
  · intro t hreach
    exact (reach_stuck hreach (moveAssign_src_lanes dst src)).1

/-- Witness for C8: moving a one-lane pool holding the single pending item 7
into a fresh one-lane pool preserves the pending multiset. -/
theorem C8_move_preserves_pending_witness :
    pendingOf (Pool.moveAssign (⟨1, 0, [⟨false, []⟩]⟩ : Pool Nat)
        ⟨1, 5, [⟨false, [7]⟩]⟩).1.queues
      = pendingOf ([⟨false, [7]⟩] : List (CQueue Nat)) :=
  (C8_move_preserves_pending (⟨1, 0, [⟨false, []⟩]⟩ : Pool Nat)
    ⟨1, 5, [⟨false, [7]⟩]⟩ rfl).2.2.1
